import Mathlib

/-!
Verification of the registration-management web application (`app.py`).

The application keeps one persistent table of `Registration` rows, ingests
uploaded spreadsheet rows into pending records (deduplicating on the
registration number and writing one QR-code image per new record), lets an
admin approve a record by surrogate id, and exports all approved records.

Shallow embedding choices:
* A parsed spreadsheet row (the Python dict produced by `row.to_dict()` after
  every datetime/date/time value has been converted to its string form) is an
  association list `List (String × String)`: cell values are modelled in their
  final textual form, and a missing column is an absent key.
* The database plus the QR-image directory is a `DBState`: the list of rows in
  insertion order, the next auto-increment primary key (SQLite starts at 1),
  and the set of image file names written so far (the image content is
  determined by the file name, so overwriting is modelled as set insertion).
* Wall-clock time (`datetime.utcnow()`) is an explicit `Nat` parameter.
* HTTP responses are modelled as a status code paired with a small inductive
  body mirroring the JSON the handler returns.
-/

/-- One row of the `registration` table (`class Registration(db.Model)`). -/
structure Registration where
  id : Nat
  regno : String
  data : List (String × String)
  status : String
  created_at : Nat
  approved_at : Option Nat
deriving Repr, DecidableEq

/-- The persistent state: table rows in insertion order, the next
auto-increment surrogate id, and the QR image files on disk. -/
structure DBState where
  records : List Registration
  nextId : Nat
  qrFiles : List String
deriving Repr, DecidableEq

/-- The empty database; SQLite integer primary keys start at 1. -/
def initState : DBState := { records := [], nextId := 1, qrFiles := [] }

/-- Python `dict.get k`: the value stored under key `k`, if present. -/
def dictGet (k : String) : List (String × String) → Option String
  | [] => none
  | (k2, v) :: rest => if k = k2 then some v else dictGet k rest

/-- Python `v or dflt` for a possibly missing string value: `none` and the
empty string are falsy, every other string is truthy. -/
def pyOrS (v : Option String) (dflt : String) : String :=
  match v with
  | none => dflt
  | some s => if s = "" then dflt else s

/-- Drop whitespace from both ends of a character list (Python `str.strip`). -/
def stripChars (l : List Char) : List Char :=
  ((l.dropWhile Char.isWhitespace).reverse.dropWhile Char.isWhitespace).reverse

/-- Python `str.strip()`: remove leading and trailing whitespace. -/
def pyStrip (s : String) : String :=
  String.mk (stripChars s.data)

/-- Line 110 of `app.py`:
`regno = str(record.get('Reg No') or record.get('regno') or record.get('ID') or '').strip()`. -/
def resolveRegno (row : List (String × String)) : String :=
  pyStrip (pyOrS (dictGet "Reg No" row)
    (pyOrS (dictGet "regno" row) (pyOrS (dictGet "ID" row) "")))

/-- Write the QR image file for a fresh regno (`generate_qr_for_text`): the
path is determined by the regno, so a repeat write overwrites in place. -/
def qrFileAdd (files : List String) (f : String) : List String :=
  if f ∈ files then files else files ++ [f]

/-- Accept one row: write its QR image and insert a pending `Registration`
with the next surrogate id (lines 118-130 of `app.py`). -/
def uploadRow (now : Nat) (st : DBState) (row : List (String × String)) : DBState :=
  { records := st.records ++
      [{ id := st.nextId, regno := resolveRegno row, data := row,
         status := "pending", created_at := now, approved_at := none }],
    nextId := st.nextId + 1,
    qrFiles := qrFileAdd st.qrFiles (resolveRegno row ++ ".png") }

/-- The ingestion loop of the `upload` handler (lines 101-132 of `app.py`)
over the parsed rows: a row is skipped when its resolved regno is empty or
already present (the duplicate query runs against the autoflushed session, so
it also sees rows added earlier in the same upload); otherwise the row is
accepted and the `created` counter incremented.  Returns the final state and
the reported summary count. -/
def uploadRows (now : Nat) (st : DBState) :
    List (List (String × String)) → DBState × Nat
  | [] => (st, 0)
  | row :: rest =>
    let regno := resolveRegno row
    if regno = "" then uploadRows now st rest
    else if st.records.any (fun r => r.regno = regno) then uploadRows now st rest
    else
      let p := uploadRows now (uploadRow now st row) rest
      (p.1, p.2 + 1)

/-- Replace the first element satisfying `p` by its image under `f`
(the single-row mutation performed through the ORM identity map). -/
def updateFirst (p : α → Bool) (f : α → α) : List α → List α
  | [] => []
  | a :: l => if p a then f a :: l else a :: updateFirst p f l

/-- JSON body returned by `POST /api/approve/<id>`. -/
inductive ApproveBody where
  | errNotFound
  | okTrue
deriving Repr, DecidableEq

/-- The `api_approve` handler (lines 162-171 of `app.py`): look the record up
by surrogate id; on a miss answer 404 `error: not found` without touching the
store, otherwise set `status` to `approved`, stamp `approved_at` with the
current time, commit, and answer 200 `ok: true`. -/
def api_approve (st : DBState) (rec_id : Nat) (now : Nat) :
    DBState × (Nat × ApproveBody) :=
  match st.records.find? (fun r => r.id = rec_id) with
  | none => (st, (404, ApproveBody.errNotFound))
  | some _ =>
    ({ st with
        records := updateFirst (fun r => r.id = rec_id)
          (fun r => { r with status := "approved", approved_at := some now })
          st.records },
     (200, ApproveBody.okTrue))

/-- JSON body returned by `GET /api/get_by_regno/<regno>`. -/
inductive LookupBody where
  | errNotFound
  | record (id : Nat) (data : List (String × String)) (status : String)
deriving Repr, DecidableEq

/-- The `api_get_by_regno` handler (lines 153-159 of `app.py`). -/
def api_get_by_regno (st : DBState) (regno : String) : Nat × LookupBody :=
  match st.records.find? (fun r => r.regno = regno) with
  | none => (404, LookupBody.errNotFound)
  | some rec => (200, LookupBody.record rec.id rec.data rec.status)

/-- The MIME type sent with the export attachment. -/
def xlsxMime : String :=
  "application/vnd.openxmlformats-officedocument.spreadsheetml.sheet"

/-- Outcome of `GET /admin/download/export`: either a flashed warning with a
redirect and no file, or a spreadsheet attachment whose data rows are listed
in order. -/
inductive ExportResult where
  | warnNoRecords
  | file (name : String) (mime : String) (rows : List (List (String × String)))
deriving Repr, DecidableEq

/-- The `admin_download_export` handler (lines 179-193 of `app.py`): with no
approved records, flash a warning and redirect; otherwise serialize the `data`
mapping of every approved record, one spreadsheet row each, and stream the
file `approved_records.xlsx`. -/
def admin_download_export (st : DBState) : ExportResult :=
  let docs := st.records.filter (fun r => r.status = "approved")
  if docs.isEmpty then ExportResult.warnNoRecords
  else ExportResult.file "approved_records.xlsx" xlsxMime
    (docs.map (fun d => d.data))

/-- The rows of an upload that the specification says are accepted: a row
counts exactly when its resolved identifier is non-empty and duplicates
neither an identifier already in the store (`existing`) nor the identifier of
an earlier accepted row of the same file.  Spec-side description, to be
compared with the ingestion loop. -/
def acceptedRegnos (existing : List String) :
    List (List (String × String)) → List String
  | [] => []
  | row :: rest =>
    let regno := resolveRegno row
    if regno = "" ∨ regno ∈ existing then acceptedRegnos existing rest
    else regno :: acceptedRegnos (regno :: existing) rest

/-- One state transition of the application: an upload of some parsed rows or
an approval call, at some wall-clock time. -/
inductive Step : DBState → DBState → Prop where
  | upload (st : DBState) (rows : List (List (String × String))) (now : Nat) :
      Step st (uploadRows now st rows).1
  | approve (st : DBState) (rec_id now : Nat) :
      Step st (api_approve st rec_id now).1

/-- States reachable from the empty database by ingestion and approval. -/
inductive Reachable : DBState → Prop where
  | init : Reachable initState
  | step (st st' : DBState) : Reachable st → Step st st' → Reachable st'

/-- Well-formedness of a single stored record: a legal status value, the
`approved_at` stamp present exactly on approved records, and a non-empty
whitespace-trimmed registration number. -/
def RecordWF (r : Registration) : Prop :=
  (r.status = "pending" ∨ r.status = "approved") ∧
  (r.approved_at.isSome = true ↔ r.status = "approved") ∧
  r.regno ≠ "" ∧ pyStrip r.regno = r.regno

/-- The store invariant: every record is well formed with a surrogate id
below the auto-increment counter, and surrogate ids are pairwise distinct. -/
def StoreInv (st : DBState) : Prop :=
  (∀ r ∈ st.records, RecordWF r ∧ r.id < st.nextId) ∧
  (st.records.map (fun r => r.id)).Nodup

/-- The spec scenario: rows `Reg No: A1 / Name: Alice`,
`Reg No: A1 / Name: AliceDup`, `Reg No: (empty) / Name: NoId`. -/
def demoRows : List (List (String × String)) :=
  [[("Reg No", "A1"), ("Name", "Alice")],
   [("Reg No", "A1"), ("Name", "AliceDup")],
   [("Reg No", ""), ("Name", "NoId")]]

/-- The store after uploading the spec scenario into the empty database. -/
def demoSt1 : DBState := (uploadRows 0 initState demoRows).1

/-- The single record `demoSt1` holds. -/
def demoPendingRec : Registration :=
  { id := 1, regno := "A1", data := [("Reg No", "A1"), ("Name", "Alice")],
    status := "pending", created_at := 0, approved_at := none }

/-- The store after additionally approving record 1 at time 5. -/
def demoSt2 : DBState := (api_approve demoSt1 1 5).1

/-- The single record `demoSt2` holds. -/
def demoApprovedRec : Registration :=
  { id := 1, regno := "A1", data := [("Reg No", "A1"), ("Name", "Alice")],
    status := "approved", created_at := 0, approved_at := some 5 }

example : demoSt1.records = [demoPendingRec] := by decide
example : demoSt2.records = [demoApprovedRec] := by decide
example : (uploadRows 0 initState demoRows).2 = 1 := by decide

/-! ### Helper lemmas about stripping -/

theorem stripChars_eq (l : List Char) :
    stripChars l =
      List.rdropWhile Char.isWhitespace (l.dropWhile Char.isWhitespace) := rfl

theorem dropWhile_head_false (p : α → Bool) :
    ∀ (l : List α) (a : α) (t : List α), l.dropWhile p = a :: t → p a = false := by
  intro l
  induction l with
  | nil => intro a t h; simp [List.dropWhile] at h
  | cons b l' ih =>
    intro a t h
    rw [List.dropWhile_cons] at h
    by_cases hpb : p b = true
    · rw [if_pos hpb] at h
      exact ih a t h
    · rw [if_neg hpb] at h
      injection h with h1 _
      rw [← h1]
      exact Bool.not_eq_true (p b) |>.mp hpb

theorem dropWhile_rdropWhile (p : α → Bool) (l : List α) :
    (List.rdropWhile p (l.dropWhile p)).dropWhile p =
      List.rdropWhile p (l.dropWhile p) := by
  obtain ⟨t, ht⟩ := List.rdropWhile_prefix p (l.dropWhile p)
  rcases hr : List.rdropWhile p (l.dropWhile p) with _ | ⟨a, t'⟩
  · simp
  · rw [hr] at ht
    have hm : l.dropWhile p = a :: (t' ++ t) := by rw [← ht, List.cons_append]
    have ha : p a = false := dropWhile_head_false p l a (t' ++ t) hm
    rw [List.dropWhile_cons, ha]
    simp

theorem stripChars_idem (l : List Char) :
    stripChars (stripChars l) = stripChars l := by
  rw [stripChars_eq, stripChars_eq, dropWhile_rdropWhile,
    List.rdropWhile_idempotent]

theorem pyStrip_idem (s : String) : pyStrip (pyStrip s) = pyStrip s := by
  unfold pyStrip
  exact congrArg String.mk (stripChars_idem s.data)

theorem resolveRegno_strip (row : List (String × String)) :
    pyStrip (resolveRegno row) = resolveRegno row := by
  unfold resolveRegno
  exact pyStrip_idem _

/-! ### Helper lemmas about `updateFirst` and `find?` -/

theorem find_updateFirst (p : α → Bool) (f : α → α) :
    ∀ (l : List α) (r : α), l.find? p = some r →
      ∃ l₁ l₂, l = l₁ ++ r :: l₂ ∧
        updateFirst p f l = l₁ ++ f r :: l₂ ∧ ∀ a ∈ l₁, p a = false := by
  intro l
  induction l with
  | nil => intro r h; simp [List.find?] at h
  | cons a t ih =>
    intro r h
    rw [List.find?_cons] at h
    by_cases hpa : p a = true
    · rw [hpa] at h
      simp only [cond_true, Option.some.injEq] at h
      subst h
      exact ⟨[], t, by simp [updateFirst, hpa]⟩
    · rw [Bool.not_eq_true] at hpa
      rw [hpa] at h
      simp only [cond_false] at h
      obtain ⟨l₁, l₂, hl, hu, hfalse⟩ := ih r h
      refine ⟨a :: l₁, l₂, by simp [hl], ?_, ?_⟩
      · simp [updateFirst, hpa, hu]
      · intro x hx
        rcases List.mem_cons.mp hx with hx | hx
        · subst hx; exact hpa
        · exact hfalse x hx

theorem mem_updateFirst (p : α → Bool) (f : α → α) :
    ∀ (l : List α) (x : α), x ∈ updateFirst p f l →
      x ∈ l ∨ ∃ a ∈ l, p a = true ∧ x = f a := by
  intro l
  induction l with
  | nil => intro x h; simp [updateFirst] at h
  | cons a t ih =>
    intro x h
    simp only [updateFirst] at h
    by_cases hpa : p a = true
    · rw [if_pos hpa] at h
      rcases List.mem_cons.mp h with hx | hx
      · exact Or.inr ⟨a, List.mem_cons_self a t, hpa, hx⟩
      · exact Or.inl (List.mem_cons_of_mem a hx)
    · rw [if_neg hpa] at h
      rcases List.mem_cons.mp h with hx | hx
      · exact Or.inl (hx ▸ List.mem_cons_self a t)
      · rcases ih x hx with hx' | ⟨b, hb, hpb, hxb⟩
        · exact Or.inl (List.mem_cons_of_mem a hx')
        · exact Or.inr ⟨b, List.mem_cons_of_mem a hb, hpb, hxb⟩

theorem nodup_map_inj {α β : Type} (f : α → β) :
    ∀ l : List α, (l.map f).Nodup →
      ∀ a ∈ l, ∀ b ∈ l, f a = f b → a = b := by
  intro l
  induction l with
  | nil => intro _ a ha; simp at ha
  | cons c t ih =>
    intro hnd a ha b hb hf
    rw [List.map_cons, List.nodup_cons] at hnd
    rcases List.mem_cons.mp ha with ha' | ha' <;>
      rcases List.mem_cons.mp hb with hb' | hb'
    · rw [ha', hb']
    · exfalso
      apply hnd.1
      rw [ha'] at hf
      rw [hf]
      exact List.mem_map_of_mem f hb'
    · exfalso
      apply hnd.1
      rw [hb'] at hf
      rw [← hf]
      exact List.mem_map_of_mem f ha'
    · exact ih hnd.2 a ha' b hb' hf

/-! ### Helper lemmas about the ingestion loop -/

theorem mem_qrFileAdd_self (files : List String) (f : String) :
    f ∈ qrFileAdd files f := by
  unfold qrFileAdd
  by_cases h : f ∈ files
  · rw [if_pos h]; exact h
  · rw [if_neg h]; simp

theorem mem_qrFileAdd_of_mem (files : List String) (f g : String) :
    g ∈ files → g ∈ qrFileAdd files f := by
  intro h
  unfold qrFileAdd
  by_cases hf : f ∈ files
  · rw [if_pos hf]; exact h
  · rw [if_neg hf]; exact List.mem_append_left _ h

theorem any_regno_iff (l : List Registration) (q : String) :
    l.any (fun r => r.regno = q) = true ↔ q ∈ l.map (fun r => r.regno) := by
  simp only [List.any_eq_true, List.mem_map, decide_eq_true_eq]

theorem acceptedRegnos_congr :
    ∀ (rows : List (List (String × String))) (e1 e2 : List String),
      (∀ x, x ∈ e1 ↔ x ∈ e2) →
      acceptedRegnos e1 rows = acceptedRegnos e2 rows := by
  intro rows
  induction rows with
  | nil => intro e1 e2 _; rfl
  | cons row rest ih =>
    intro e1 e2 h
    have hiff : (resolveRegno row = "" ∨ resolveRegno row ∈ e1) ↔
        (resolveRegno row = "" ∨ resolveRegno row ∈ e2) :=
      or_congr Iff.rfl (h _)
    simp only [acceptedRegnos]
    by_cases h0 : resolveRegno row = "" ∨ resolveRegno row ∈ e1
    · rw [if_pos h0, if_pos (hiff.mp h0)]
      exact ih e1 e2 h
    · rw [if_neg h0, if_neg (fun hc => h0 (hiff.mpr hc))]
      have hmem : ∀ x, x ∈ resolveRegno row :: e1 ↔ x ∈ resolveRegno row :: e2 := by
        intro x
        simp only [List.mem_cons]
        exact or_congr Iff.rfl (h x)
      rw [ih (resolveRegno row :: e1) (resolveRegno row :: e2) hmem]

theorem uploadRow_records (now : Nat) (st : DBState)
    (row : List (String × String)) :
    (uploadRow now st row).records = st.records ++
      [{ id := st.nextId, regno := resolveRegno row, data := row,
         status := "pending", created_at := now, approved_at := none }] := rfl

theorem uploadRows_spec (now : Nat) :
    ∀ (rows : List (List (String × String))) (st : DBState),
      ∃ newRecs : List Registration,
        (uploadRows now st rows).1.records = st.records ++ newRecs ∧
        newRecs.map (fun r => r.regno) =
          acceptedRegnos (st.records.map (fun r => r.regno)) rows ∧
        (uploadRows now st rows).2 =
          (acceptedRegnos (st.records.map (fun r => r.regno)) rows).length ∧
        (∀ r ∈ newRecs, r.status = "pending" ∧ r.approved_at = none ∧
          r.created_at = now ∧ st.nextId ≤ r.id ∧
          r.id < (uploadRows now st rows).1.nextId) ∧
        (newRecs.map (fun r => r.id)).Pairwise (· < ·) ∧
        st.nextId ≤ (uploadRows now st rows).1.nextId ∧
        (∀ q ∈ st.qrFiles, q ∈ (uploadRows now st rows).1.qrFiles) ∧
        (∀ q ∈ acceptedRegnos (st.records.map (fun r => r.regno)) rows,
          (q ++ ".png") ∈ (uploadRows now st rows).1.qrFiles) := by
  intro rows
  induction rows with
  | nil =>
    intro st
    refine ⟨[], ?_, ?_, ?_, ?_, ?_, ?_, ?_, ?_⟩ <;>
      simp [uploadRows, acceptedRegnos]
  | cons row rest ih =>
    intro st
    by_cases h0 : resolveRegno row = ""
    · have huu : uploadRows now st (row :: rest) = uploadRows now st rest := by
        simp only [uploadRows]
        rw [if_pos h0]
      have hacc : acceptedRegnos (st.records.map (fun r => r.regno)) (row :: rest) =
          acceptedRegnos (st.records.map (fun r => r.regno)) rest := by
        simp only [acceptedRegnos]
        rw [if_pos (Or.inl h0)]
      rw [huu, hacc]
      exact ih st
    · by_cases hany : st.records.any (fun r => r.regno = resolveRegno row) = true
      · have huu : uploadRows now st (row :: rest) = uploadRows now st rest := by
          simp only [uploadRows]
          rw [if_neg h0, if_pos hany]
        have hmem : resolveRegno row ∈ st.records.map (fun r => r.regno) :=
          (any_regno_iff st.records (resolveRegno row)).mp hany
        have hacc : acceptedRegnos (st.records.map (fun r => r.regno)) (row :: rest) =
            acceptedRegnos (st.records.map (fun r => r.regno)) rest := by
          simp only [acceptedRegnos]
          rw [if_pos (Or.inr hmem)]
        rw [huu, hacc]
        exact ih st
      · have huu : uploadRows now st (row :: rest) =
            ((uploadRows now (uploadRow now st row) rest).1,
             (uploadRows now (uploadRow now st row) rest).2 + 1) := by
          simp only [uploadRows]
          rw [if_neg h0, if_neg hany]
        have huu1 : (uploadRows now st (row :: rest)).1 =
            (uploadRows now (uploadRow now st row) rest).1 := by rw [huu]
        have huu2 : (uploadRows now st (row :: rest)).2 =
            (uploadRows now (uploadRow now st row) rest).2 + 1 := by rw [huu]
        have hnotmem : resolveRegno row ∉ st.records.map (fun r => r.regno) :=
          fun hc => hany ((any_regno_iff st.records (resolveRegno row)).mpr hc)
        have hacc : acceptedRegnos (st.records.map (fun r => r.regno)) (row :: rest) =
            resolveRegno row ::
              acceptedRegnos (resolveRegno row :: st.records.map (fun r => r.regno))
                rest := by
          simp only [acceptedRegnos]
          rw [if_neg ?_]
          rintro (hc | hc)
          · exact h0 hc
          · exact hnotmem hc
        have hmapst : (uploadRow now st row).records.map (fun r => r.regno) =
            st.records.map (fun r => r.regno) ++ [resolveRegno row] := by
          rw [uploadRow_records]
          simp
        have hcongr :
            acceptedRegnos ((uploadRow now st row).records.map (fun r => r.regno))
              rest =
            acceptedRegnos (resolveRegno row :: st.records.map (fun r => r.regno))
              rest := by
          apply acceptedRegnos_congr
          intro x
          rw [hmapst]
          simp [or_comm]
        have hnxt : (uploadRow now st row).nextId = st.nextId + 1 := rfl
        obtain ⟨newRecs, h1, h2, h3, h4, h5, h6, h7, h8⟩ := ih (uploadRow now st row)
        rw [hcongr] at h2 h3 h8
        rw [hnxt] at h6
        refine ⟨{ id := st.nextId, regno := resolveRegno row, data := row,
                  status := "pending", created_at := now,
                  approved_at := none } :: newRecs, ?_, ?_, ?_, ?_, ?_, ?_, ?_, ?_⟩
        · rw [huu1, h1, uploadRow_records]
          simp [List.append_assoc]
        · rw [hacc]
          simp only [List.map_cons]
          rw [h2]
        · rw [huu2, hacc]
          simp only [List.length_cons]
          rw [h3]
        · intro r hr
          rw [huu1]
          rcases List.mem_cons.mp hr with hr' | hr'
          · subst hr'
            refine ⟨rfl, rfl, rfl, le_refl _, ?_⟩
            show st.nextId < (uploadRows now (uploadRow now st row) rest).1.nextId
            omega
          · obtain ⟨ha, hb, hc, hd, he⟩ := h4 r hr'
            rw [hnxt] at hd
            exact ⟨ha, hb, hc, by omega, he⟩
        · simp only [List.map_cons]
          rw [List.pairwise_cons]
          refine ⟨?_, h5⟩
          intro b hb
          simp only [List.mem_map] at hb
          obtain ⟨r, hr, hid⟩ := hb
          obtain ⟨_, _, _, hd, _⟩ := h4 r hr
          rw [hnxt] at hd
          show st.nextId < b
          omega
        · rw [huu1]
          omega
        · intro q hq
          rw [huu1]
          apply h7
          show q ∈ qrFileAdd st.qrFiles (resolveRegno row ++ ".png")
          exact mem_qrFileAdd_of_mem _ _ _ hq
        · rw [huu1, hacc]
          intro q hq
          rcases List.mem_cons.mp hq with hq' | hq'
          · subst hq'
            apply h7
            show resolveRegno row ++ ".png" ∈
              qrFileAdd st.qrFiles (resolveRegno row ++ ".png")
            exact mem_qrFileAdd_self _ _
          · exact h8 q hq'

theorem uploadRows_regno_mono (now : Nat) (rows : List (List (String × String)))
    (st : DBState) (x : String) :
    x ∈ st.records.map (fun r => r.regno) →
    x ∈ (uploadRows now st rows).1.records.map (fun r => r.regno) := by
  intro hx
  obtain ⟨new, h1, -, -, -, -, -, -, -⟩ := uploadRows_spec now rows st
  rw [h1, List.map_append]
  exact List.mem_append_left _ hx

theorem uploadRows_covers (now : Nat) :
    ∀ (rows : List (List (String × String))) (st : DBState)
      (row : List (String × String)), row ∈ rows → resolveRegno row ≠ "" →
      resolveRegno row ∈ (uploadRows now st rows).1.records.map (fun r => r.regno) := by
  intro rows
  induction rows with
  | nil => intro st row h; simp at h
  | cons r0 rest ih =>
    intro st row hmem hne
    by_cases h0 : resolveRegno r0 = ""
    · have huu : uploadRows now st (r0 :: rest) = uploadRows now st rest := by
        simp only [uploadRows]
        rw [if_pos h0]
      rw [huu]
      rcases List.mem_cons.mp hmem with he | hm
      · rw [he] at hne
        exact absurd h0 hne
      · exact ih st row hm hne
    · by_cases hany : st.records.any (fun r => r.regno = resolveRegno r0) = true
      · have huu : uploadRows now st (r0 :: rest) = uploadRows now st rest := by
          simp only [uploadRows]
          rw [if_neg h0, if_pos hany]
        rw [huu]
        rcases List.mem_cons.mp hmem with he | hm
        · rw [he]
          exact uploadRows_regno_mono now rest st _
            ((any_regno_iff st.records (resolveRegno r0)).mp hany)
        · exact ih st row hm hne
      · have huu1 : (uploadRows now st (r0 :: rest)).1 =
            (uploadRows now (uploadRow now st r0) rest).1 := by
          simp only [uploadRows]
          rw [if_neg h0, if_neg hany]
        rw [huu1]
        rcases List.mem_cons.mp hmem with he | hm
        · rw [he]
          apply uploadRows_regno_mono
          rw [uploadRow_records]
          simp
        · exact ih (uploadRow now st r0) row hm hne

theorem uploadRows_skip_all (now : Nat) :
    ∀ (rows : List (List (String × String))) (st : DBState),
      (∀ row ∈ rows, resolveRegno row = "" ∨
        resolveRegno row ∈ st.records.map (fun r => r.regno)) →
      uploadRows now st rows = (st, 0) := by
  intro rows
  induction rows with
  | nil => intro st _; rfl
  | cons r0 rest ih =>
    intro st h
    have hrest : ∀ row ∈ rest, resolveRegno row = "" ∨
        resolveRegno row ∈ st.records.map (fun r => r.regno) :=
      fun row hr => h row (List.mem_cons_of_mem r0 hr)
    rcases h r0 (List.mem_cons_self r0 rest) with h0 | hmem
    · simp only [uploadRows]
      rw [if_pos h0]
      exact ih st hrest
    · by_cases h0 : resolveRegno r0 = ""
      · simp only [uploadRows]
        rw [if_pos h0]
        exact ih st hrest
      · have hany : st.records.any (fun r => r.regno = resolveRegno r0) = true :=
          (any_regno_iff st.records (resolveRegno r0)).mpr hmem
        simp only [uploadRows]
        rw [if_neg h0, if_pos hany]
        exact ih st hrest

/-! ### Helper lemmas about approval -/

theorem api_approve_none (st : DBState) (rec_id now : Nat)
    (h : st.records.find? (fun x => x.id = rec_id) = none) :
    api_approve st rec_id now = (st, (404, ApproveBody.errNotFound)) := by
  unfold api_approve
  rw [h]

theorem api_approve_some (st : DBState) (rec_id now : Nat) (r : Registration)
    (h : st.records.find? (fun x => x.id = rec_id) = some r) :
    ∃ l₁ l₂, st.records = l₁ ++ r :: l₂ ∧
      api_approve st rec_id now =
        ({ st with records :=
            l₁ ++ { r with status := "approved", approved_at := some now } :: l₂ },
         (200, ApproveBody.okTrue)) := by
  obtain ⟨l₁, l₂, hl, hu, -⟩ := find_updateFirst (fun x => x.id = rec_id)
    (fun x => { x with status := "approved", approved_at := some now })
    st.records r h
  refine ⟨l₁, l₂, hl, ?_⟩
  unfold api_approve
  rw [h, hu]

/-! ### The state invariant -/

theorem acceptedRegnos_wf :
    ∀ (rows : List (List (String × String))) (existing : List String)
      (q : String), q ∈ acceptedRegnos existing rows →
      q ≠ "" ∧ pyStrip q = q := by
  intro rows
  induction rows with
  | nil => intro e q h; simp [acceptedRegnos] at h
  | cons row rest ih =>
    intro e q h
    simp only [acceptedRegnos] at h
    by_cases h0 : resolveRegno row = "" ∨ resolveRegno row ∈ e
    · rw [if_pos h0] at h
      exact ih e q h
    · rw [if_neg h0] at h
      rcases List.mem_cons.mp h with he | hm
      · push_neg at h0
        rw [he]
        exact ⟨h0.1, resolveRegno_strip row⟩
      · exact ih _ q hm

theorem inv_upload (now : Nat) (rows : List (List (String × String)))
    (st : DBState) : StoreInv st → StoreInv (uploadRows now st rows).1 := by
  rintro ⟨hrec, hnd⟩
  obtain ⟨new, h1, h2, h3, h4, h5, h6, h7, h8⟩ := uploadRows_spec now rows st
  constructor
  · intro r hr
    rw [h1] at hr
    rcases List.mem_append.mp hr with hr' | hr'
    · obtain ⟨hwf, hid⟩ := hrec r hr'
      exact ⟨hwf, lt_of_lt_of_le hid h6⟩
    · obtain ⟨ha, hb, hc, hd, he⟩ := h4 r hr'
      have hmemq : r.regno ∈ new.map (fun x => x.regno) :=
        List.mem_map_of_mem _ hr'
      rw [h2] at hmemq
      obtain ⟨hne, hstrip⟩ := acceptedRegnos_wf rows _ r.regno hmemq
      refine ⟨⟨Or.inl ha, ?_, hne, hstrip⟩, he⟩
      rw [ha, hb]
      decide
  · rw [h1, List.map_append, List.nodup_append]
    refine ⟨hnd, ?_, ?_⟩
    · exact h5.imp (fun hab => Nat.ne_of_lt hab)
    · intro a ha hb
      simp only [List.mem_map] at ha hb
      obtain ⟨r, hr, hra⟩ := ha
      obtain ⟨r', hr', hrb⟩ := hb
      have hlt := (hrec r hr).2
      have hge := (h4 r' hr').2.2.2.1
      omega

theorem inv_approve (st : DBState) (rec_id now : Nat) :
    StoreInv st → StoreInv (api_approve st rec_id now).1 := by
  intro hinv
  cases hfind : st.records.find? (fun x => x.id = rec_id) with
  | none =>
    rw [api_approve_none st rec_id now hfind]
    exact hinv
  | some r =>
    obtain ⟨l₁, l₂, hl, he⟩ := api_approve_some st rec_id now r hfind
    rw [he]
    obtain ⟨hrec, hnd⟩ := hinv
    have hrmem : r ∈ st.records := by
      rw [hl]
      exact List.mem_append_right _ (List.mem_cons_self r l₂)
    constructor
    · intro x hx
      have hx' : x ∈ l₁ ++
          { r with status := "approved", approved_at := some now } :: l₂ := hx
      rcases List.mem_append.mp hx' with hm | hm
      · exact hrec x (by rw [hl]; exact List.mem_append_left _ hm)
      · rcases List.mem_cons.mp hm with he' | hm'
        · obtain ⟨⟨-, -, hne, hstrip⟩, hid⟩ := hrec r hrmem
          rw [he']
          exact ⟨⟨Or.inr rfl, by simp, hne, hstrip⟩, hid⟩
        · exact hrec x (by
            rw [hl]
            exact List.mem_append_right _ (List.mem_cons_of_mem r hm'))
    · show ((l₁ ++ { r with status := "approved", approved_at := some now } ::
          l₂).map (fun x => x.id)).Nodup
      rw [hl] at hnd
      simpa using hnd

theorem reachable_inv : ∀ st, Reachable st → StoreInv st := by
  intro st h
  induction h with
  | init =>
    constructor
    · intro r hr
      simp [initState] at hr
    · simp [initState]
  | step st1 st2 hst hstep ih =>
    cases hstep with
    | upload rows now => exact inv_upload now rows st1 ih
    | approve rec_id now => exact inv_approve st1 rec_id now ih

theorem step_no_demote (st st' : DBState) (hinv : StoreInv st) (hstep : Step st st') :
    ∀ r ∈ st.records, r.status = "approved" →
      ∀ r' ∈ st'.records, r'.id = r.id → r'.status = "approved" := by
  cases hstep with
  | upload rows now =>
    intro r hr happ r' hr' hid
    obtain ⟨new, h1, -, -, h4, -, -, -, -⟩ := uploadRows_spec now rows st
    rw [h1] at hr'
    rcases List.mem_append.mp hr' with hm | hm
    · have heq := nodup_map_inj (fun x => x.id) st.records hinv.2 r' hm r hr hid
      rw [heq]
      exact happ
    · exfalso
      have hnew := (h4 r' hm).2.2.2.1
      have hold := (hinv.1 r hr).2
      omega
  | approve rec_id now =>
    intro r hr happ r' hr' hid
    cases hfind : st.records.find? (fun x => x.id = rec_id) with
    | none =>
      rw [api_approve_none st rec_id now hfind] at hr'
      have heq := nodup_map_inj (fun x => x.id) st.records hinv.2 r' hr' r hr hid
      rw [heq]
      exact happ
    | some r0 =>
      obtain ⟨l₁, l₂, hl, he⟩ := api_approve_some st rec_id now r0 hfind
      rw [he] at hr'
      have hr'' : r' ∈ l₁ ++
          { r0 with status := "approved", approved_at := some now } :: l₂ := hr'
      rcases List.mem_append.mp hr'' with hm | hm
      · have hmem : r' ∈ st.records := by
          rw [hl]
          exact List.mem_append_left _ hm
        have heq := nodup_map_inj (fun x => x.id) st.records hinv.2 r' hmem r hr hid
        rw [heq]
        exact happ
      · rcases List.mem_cons.mp hm with he' | hm'
        · rw [he']
        · have hmem : r' ∈ st.records := by
            rw [hl]
            exact List.mem_append_right _ (List.mem_cons_of_mem r0 hm')
          have heq := nodup_map_inj (fun x => x.id) st.records hinv.2 r' hmem r hr hid
          rw [heq]
          exact happ

/-! ### Reachability of the demo states -/

theorem reachable_demoSt1 : Reachable demoSt1 :=
  Reachable.step initState demoSt1 Reachable.init
    (Step.upload initState demoRows 0)

theorem reachable_demoSt2 : Reachable demoSt2 :=
  Reachable.step demoSt1 demoSt2 reachable_demoSt1 (Step.approve demoSt1 1 5)

/-! ### The claims -/

/-- C1: uploading any parsed file over any store adds exactly the accepted
rows — those whose resolved identifier is non-empty and duplicates neither a
stored identifier nor an earlier accepted row of the same file.  The K
accepted rows become K new records appended to the store, all with status
`pending`, their regnos are exactly the accepted identifiers, a code image
`<regno>.png` exists for each of them, and the reported summary count
equals K. -/
theorem upload_adds_exactly_accepted (now : Nat) (st : DBState)
    (rows : List (List (String × String))) :
    ∃ newRecs : List Registration,
      (uploadRows now st rows).1.records = st.records ++ newRecs ∧
      newRecs.length =
        (acceptedRegnos (st.records.map (fun r => r.regno)) rows).length ∧
      newRecs.map (fun r => r.regno) =
        acceptedRegnos (st.records.map (fun r => r.regno)) rows ∧
      (∀ r ∈ newRecs, r.status = "pending") ∧
      (uploadRows now st rows).2 =
        (acceptedRegnos (st.records.map (fun r => r.regno)) rows).length ∧
      (∀ q ∈ acceptedRegnos (st.records.map (fun r => r.regno)) rows,
        (q ++ ".png") ∈ (uploadRows now st rows).1.qrFiles) := by
  obtain ⟨new, h1, h2, h3, h4, h5, h6, h7, h8⟩ := uploadRows_spec now rows st
  refine ⟨new, h1, ?_, h2, fun r hr => (h4 r hr).1, h3, h8⟩
  rw [← h2, List.length_map]

/-- C1 witness: on the spec scenario (`A1`/Alice, duplicate `A1`, blank id)
over the empty store: the reported count is 1, the only created regno is
`A1`, and the image `A1.png` exists. -/
theorem upload_adds_exactly_accepted_witness :
    (uploadRows 0 initState demoRows).2 = 1 ∧
    ("A1" ++ ".png") ∈ (uploadRows 0 initState demoRows).1.qrFiles := by
  obtain ⟨new, h1, h2, h3, h4, h5, h6⟩ :=
    upload_adds_exactly_accepted 0 initState demoRows
  constructor
  · rw [h5]
    decide
  · exact h6 "A1" (by decide)

/-- C2: ingestion is idempotent under identical input: re-running the upload
of the same rows immediately after a first upload leaves the store unchanged
and reports zero records added. -/
theorem upload_idempotent (now1 now2 : Nat) (st : DBState)
    (rows : List (List (String × String))) :
    uploadRows now2 (uploadRows now1 st rows).1 rows =
      ((uploadRows now1 st rows).1, 0) := by
  apply uploadRows_skip_all
  intro row hrow
  by_cases h : resolveRegno row = ""
  · exact Or.inl h
  · exact Or.inr (uploadRows_covers now1 rows st row hrow h)

/-- C3: approving a record found pending by surrogate id changes only its
`status` and `approved_at`: the updated record keeps its `id`, `regno`,
`data` and `created_at` verbatim, every record before and after it in the
table is untouched, and the rest of the state (`nextId`, image files) is
unchanged. -/
theorem approve_changes_only_status (st : DBState) (rec_id now : Nat)
    (r : Registration)
    (hfind : st.records.find? (fun x => x.id = rec_id) = some r)
    (hpend : r.status = "pending") :
    ∃ l₁ l₂,
      st.records = l₁ ++ r :: l₂ ∧
      (api_approve st rec_id now).1.records =
        l₁ ++ { id := r.id, regno := r.regno, data := r.data,
                status := "approved", created_at := r.created_at,
                approved_at := some now } :: l₂ ∧
      (api_approve st rec_id now).1.nextId = st.nextId ∧
      (api_approve st rec_id now).1.qrFiles = st.qrFiles := by
  obtain ⟨l₁, l₂, hl, he⟩ := api_approve_some st rec_id now r hfind
  exact ⟨l₁, l₂, hl, by rw [he], by rw [he], by rw [he]⟩

/-- C3 witness: approving the pending `A1` record of the demo store at time 5
rewrites exactly its status and approval stamp. -/
theorem approve_changes_only_status_witness :
    ∃ l₁ l₂,
      demoSt1.records = l₁ ++ demoPendingRec :: l₂ ∧
      (api_approve demoSt1 1 5).1.records =
        l₁ ++ { id := demoPendingRec.id, regno := demoPendingRec.regno,
                data := demoPendingRec.data, status := "approved",
                created_at := demoPendingRec.created_at,
                approved_at := some 5 } :: l₂ ∧
      (api_approve demoSt1 1 5).1.nextId = demoSt1.nextId ∧
      (api_approve demoSt1 1 5).1.qrFiles = demoSt1.qrFiles :=
  approve_changes_only_status demoSt1 1 5 demoPendingRec (by decide) (by decide)

/-- C4: approving an unknown surrogate id answers 404 `error: not found`
with the whole state unchanged; approving an existing id answers 200
`ok: true` and updates the found record to `approved` stamped with the
current time. -/
theorem approve_spec (st : DBState) (rec_id now : Nat) :
    ((∀ r ∈ st.records, r.id ≠ rec_id) →
      api_approve st rec_id now = (st, (404, ApproveBody.errNotFound))) ∧
    (∀ r, st.records.find? (fun x => x.id = rec_id) = some r →
      (api_approve st rec_id now).2 = (200, ApproveBody.okTrue) ∧
      ∃ l₁ l₂, st.records = l₁ ++ r :: l₂ ∧
        (api_approve st rec_id now).1.records =
          l₁ ++ ({ r with status := "approved", approved_at := some now } : Registration) :: l₂) := by
  constructor
  · intro h
    apply api_approve_none
    rw [List.find?_eq_none]
    intro x hx
    simp only [decide_eq_true_eq]
    exact h x hx
  · intro r hr
    obtain ⟨l₁, l₂, hl, he⟩ := api_approve_some st rec_id now r hr
    exact ⟨by rw [he], l₁, l₂, hl, by rw [he]⟩

/-- C4 witness: approving id 1 in the empty store yields 404 and no change;
approving id 1 in the demo store yields 200 `ok: true`. -/
theorem approve_spec_witness :
    api_approve initState 1 0 = (initState, (404, ApproveBody.errNotFound)) ∧
    (api_approve demoSt1 1 5).2 = (200, ApproveBody.okTrue) := by
  constructor
  · refine (approve_spec initState 1 0).1 ?_
    intro r hr
    simp [initState] at hr
  · exact ((approve_spec demoSt1 1 5).2 demoPendingRec (by decide)).1

/-- C5: in every reachable store state each record's status is `pending` or
`approved` and `approved_at` is set exactly when the status is `approved`;
moreover no single ingestion or approval step ever demotes a record: a
record `approved` before a step is still `approved` (under the same
surrogate id) after it. -/
theorem status_lifecycle :
    (∀ st, Reachable st → ∀ r ∈ st.records,
      (r.status = "pending" ∨ r.status = "approved") ∧
      (r.approved_at.isSome = true ↔ r.status = "approved")) ∧
    (∀ st st', Reachable st → Step st st' →
      ∀ r ∈ st.records, r.status = "approved" →
        ∀ r' ∈ st'.records, r'.id = r.id → r'.status = "approved") := by
  constructor
  · intro st h r hr
    have hwf := ((reachable_inv st h).1 r hr).1
    exact ⟨hwf.1, hwf.2.1⟩
  · intro st st' h hstep
    exact step_no_demote st st' (reachable_inv st h) hstep

/-- C5 witness: the approved record of the reachable demo store satisfies
the lifecycle invariant. -/
theorem status_lifecycle_witness :
    (demoApprovedRec.status = "pending" ∨
      demoApprovedRec.status = "approved") ∧
    (demoApprovedRec.approved_at.isSome = true ↔
      demoApprovedRec.status = "approved") :=
  status_lifecycle.1 demoSt2 reachable_demoSt2 demoApprovedRec (by decide)

/-- C6: exporting with zero approved records produces the warning and no
file; with M > 0 approved records it produces the attachment
`approved_records.xlsx` whose data rows are exactly the M approved records'
`data` mappings, in store order. -/
theorem export_spec (st : DBState) :
    ((st.records.filter (fun r => r.status = "approved")).length = 0 →
      admin_download_export st = ExportResult.warnNoRecords) ∧
    (0 < (st.records.filter (fun r => r.status = "approved")).length →
      admin_download_export st =
        ExportResult.file "approved_records.xlsx" xlsxMime
          ((st.records.filter (fun r => r.status = "approved")).map
            (fun d => d.data)) ∧
      ((st.records.filter (fun r => r.status = "approved")).map
          (fun d => d.data)).length =
        (st.records.filter (fun r => r.status = "approved")).length) := by
  constructor
  · intro h
    have hnil : st.records.filter (fun r => r.status = "approved") = [] :=
      List.length_eq_zero.mp h
    simp only [admin_download_export]
    rw [hnil]
    rfl
  · intro h
    rcases hF : st.records.filter (fun r => r.status = "approved") with _ | ⟨a, t⟩
    · rw [hF] at h
      simp at h
    · constructor
      · simp only [admin_download_export]
        rw [hF]
        rfl
      · rw [List.length_map]

/-- C6 witness: the empty store exports to a warning; the demo store with
its one approved record exports one data row. -/
theorem export_spec_witness :
    admin_download_export initState = ExportResult.warnNoRecords ∧
    admin_download_export demoSt2 =
      ExportResult.file "approved_records.xlsx" xlsxMime
        [demoApprovedRec.data] := by
  constructor
  · exact (export_spec initState).1 (by decide)
  · have h := ((export_spec demoSt2).2 (by decide)).1
    rw [h]
    decide

/-- C7: looking a record up by regno answers 404 `error: not found` when no
record carries that regno, and otherwise exactly the stored record's
surrogate id, `data` mapping and `status`. -/
theorem get_by_regno_spec (st : DBState) (regno : String) :
    ((∀ r ∈ st.records, r.regno ≠ regno) →
      api_get_by_regno st regno = (404, LookupBody.errNotFound)) ∧
    (∀ rec, st.records.find? (fun r => r.regno = regno) = some rec →
      api_get_by_regno st regno =
        (200, LookupBody.record rec.id rec.data rec.status)) := by
  constructor
  · intro h
    have hnone : st.records.find? (fun r => r.regno = regno) = none := by
      rw [List.find?_eq_none]
      intro x hx
      simp only [decide_eq_true_eq]
      exact h x hx
    unfold api_get_by_regno
    rw [hnone]
  · intro rec h
    unfold api_get_by_regno
    rw [h]

/-- C7 witness: in the demo store, `ZZ` answers 404 and `A1` answers the
stored record. -/
theorem get_by_regno_spec_witness :
    api_get_by_regno demoSt1 "ZZ" = (404, LookupBody.errNotFound) ∧
    api_get_by_regno demoSt1 "A1" =
      (200, LookupBody.record demoPendingRec.id demoPendingRec.data
        demoPendingRec.status) := by
  constructor
  · refine (get_by_regno_spec demoSt1 "ZZ").1 ?_
    decide
  · exact (get_by_regno_spec demoSt1 "A1").2 demoPendingRec (by decide)

/-- C8 as stated is false at a concrete input: in the row
`Reg No: " ", regno: "B1"` the whitespace-only `Reg No` value is truthy in
the or-chain, wins, and strips to the empty string, so the row resolves to
no identifier (not to `B1`) and uploading it creates no record at all. -/
theorem regno_resolution_cex :
    resolveRegno [("Reg No", " "), ("regno", "B1")] = "" ∧
    uploadRows 0 initState [[("Reg No", " "), ("regno", "B1")]] =
      (initState, 0) := by
  constructor
  · decide
  · decide

/-- C8 (amended): resolution checks `Reg No`, `regno`, `ID` in that order,
and the first value that is present and non-empty before trimming wins; the
winning value is then trimmed.  If every candidate is absent or empty the
resolved identifier is empty, and any row whose resolved identifier is empty
is silently skipped — neither counted nor stored.  (A whitespace-only
`Reg No` therefore wins the chain, trims to empty, and the row is skipped
even when `regno` or `ID` is non-empty.) -/
theorem regno_resolution (row : List (String × String)) :
    (∀ s, dictGet "Reg No" row = some s → s ≠ "" →
      resolveRegno row = pyStrip s) ∧
    ((dictGet "Reg No" row = none ∨ dictGet "Reg No" row = some "") →
      ∀ s, dictGet "regno" row = some s → s ≠ "" →
        resolveRegno row = pyStrip s) ∧
    ((dictGet "Reg No" row = none ∨ dictGet "Reg No" row = some "") →
      (dictGet "regno" row = none ∨ dictGet "regno" row = some "") →
      ∀ s, dictGet "ID" row = some s → s ≠ "" →
        resolveRegno row = pyStrip s) ∧
    ((dictGet "Reg No" row = none ∨ dictGet "Reg No" row = some "") →
      (dictGet "regno" row = none ∨ dictGet "regno" row = some "") →
      (dictGet "ID" row = none ∨ dictGet "ID" row = some "") →
      resolveRegno row = "") ∧
    (∀ (now : Nat) (st : DBState) (rest : List (List (String × String))),
      resolveRegno row = "" →
      uploadRows now st (row :: rest) = uploadRows now st rest) := by
  refine ⟨?_, ?_, ?_, ?_, ?_⟩
  · intro s h hne
    simp [resolveRegno, pyOrS, h, hne]
  · rintro (h1 | h1) s h hne <;>
      simp [resolveRegno, pyOrS, h1, h, hne]
  · rintro (h1 | h1) (h2 | h2) s h hne <;>
      simp [resolveRegno, pyOrS, h1, h2, h, hne]
  · rintro (h1 | h1) (h2 | h2) (h3 | h3) <;>
      simp [resolveRegno, pyOrS, h1, h2, h3] <;> decide
  · intro now st rest h
    simp only [uploadRows]
    rw [if_pos h]

/-- C8 witness: a plain `Reg No: A1` row resolves to the trimmed `A1`, and a
row resolving to the empty identifier is skipped outright. -/
theorem regno_resolution_witness :
    resolveRegno [("Reg No", "A1"), ("Name", "Alice")] = pyStrip "A1" ∧
    uploadRows 0 initState [[("Reg No", ""), ("Name", "NoId")]] =
      uploadRows 0 initState [] := by
  constructor
  · exact (regno_resolution _).1 "A1" (by decide) (by decide)
  · exact (regno_resolution _).2.2.2.2 0 initState [] (by decide)

/-- C9: approving an already-approved record is not a guarded no-op: the
call succeeds with 200 `ok: true`, the status stays `approved`, and
`approved_at` is overwritten with the current time, strictly newer than the
previous stamp. -/
theorem approve_restamps (st : DBState) (rec_id now : Nat) (r : Registration)
    (t : Nat)
    (hfind : st.records.find? (fun x => x.id = rec_id) = some r)
    (happ : r.status = "approved") (hat : r.approved_at = some t)
    (hlt : t < now) :
    (api_approve st rec_id now).2 = (200, ApproveBody.okTrue) ∧
    ∃ l₁ l₂, st.records = l₁ ++ r :: l₂ ∧
      (api_approve st rec_id now).1.records =
        l₁ ++ ({ r with status := "approved", approved_at := some now } : Registration) :: l₂ ∧
      (∀ t0, r.approved_at = some t0 → t0 < now) := by
  obtain ⟨l₁, l₂, hl, he⟩ := api_approve_some st rec_id now r hfind
  refine ⟨by rw [he], l₁, l₂, hl, by rw [he], ?_⟩
  intro t0 h0
  rw [hat] at h0
  injection h0 with h0
  omega

/-- C9 witness: re-approving the already-approved demo record at the later
time 7 succeeds and restamps `approved_at` to 7. -/
theorem approve_restamps_witness :
    (api_approve demoSt2 1 7).2 = (200, ApproveBody.okTrue) ∧
    ∃ l₁ l₂, demoSt2.records = l₁ ++ demoApprovedRec :: l₂ ∧
      (api_approve demoSt2 1 7).1.records =
        l₁ ++ ({ demoApprovedRec with status := "approved", approved_at := some 7 } : Registration) :: l₂ ∧
      (∀ t0, demoApprovedRec.approved_at = some t0 → t0 < 7) :=
  approve_restamps demoSt2 1 7 demoApprovedRec 5 (by decide) (by decide)
    (by decide) (by decide)

/-- C10: in every reachable store each record's `regno` is a non-empty
string unchanged by stripping (no leading or trailing whitespace), and
consequently a regno lookup can only answer 200 for a trimmed non-empty
regno argument. -/
theorem regno_trimmed :
    (∀ st, Reachable st → ∀ r ∈ st.records,
      r.regno ≠ "" ∧ pyStrip r.regno = r.regno) ∧
    (∀ st regno, Reachable st → (api_get_by_regno st regno).1 = 200 →
      regno ≠ "" ∧ pyStrip regno = regno) := by
  constructor
  · intro st h r hr
    have hwf := ((reachable_inv st h).1 r hr).1
    exact ⟨hwf.2.2.1, hwf.2.2.2⟩
  · intro st regno h hsucc
    cases hfind : st.records.find? (fun r => r.regno = regno) with
    | none =>
      exfalso
      unfold api_get_by_regno at hsucc
      rw [hfind] at hsucc
      simp at hsucc
    | some rec =>
      have hmem : rec ∈ st.records := List.mem_of_find?_eq_some hfind
      have heq : rec.regno = regno := by
        have hp := List.find?_some hfind
        simpa using hp
      have hwf := ((reachable_inv st h).1 rec hmem).1
      rw [← heq]
      exact ⟨hwf.2.2.1, hwf.2.2.2⟩

/-- C10 witness: the stored demo regno `A1` is non-empty and trimmed. -/
theorem regno_trimmed_witness :
    demoPendingRec.regno ≠ "" ∧
    pyStrip demoPendingRec.regno = demoPendingRec.regno :=
  regno_trimmed.1 demoSt1 reachable_demoSt1 demoPendingRec (by decide)
